import Mathlib

/-!
Verification development for the `pct` update-creation tool (`cmd/create.go`).

The Go program indexes a baseline product distribution (a zip archive) into an
in-memory tree of `node`s, scans the update directory into a flat inventory
map, resolves for each top-level update entry every plausible location in the
baseline tree, copies files to a staging area, and classifies each realized
copy as Added or Modified by comparing MD5 content hashes.

This file shallowly embeds the functions of `cmd/create.go` that carry the
algorithmic content (`AddToRootNode`, `readZip`, `readDirectory`,
`NodeExists`/`PathExists`, `CheckMD5`/`CompareMD5`, `FindMatches`,
`getAllMatchingFiles`, `copyFile`, `handleSingleMatch`,
`handleMultipleMatches`, `handleNewFile`) and proves or refutes the spec
claims about them.  Interactive input, logging and actual filesystem writes
are modelled by explicit parameters and by returning the list of copy actions
a flow performs.  Go maps are modelled as association lists (Go iterates maps
in unspecified order; the claims proved here are order-insensitive).
-/

namespace Pct

/-! ## String utilities

The Go code manipulates paths as strings, using `strings.Split(s, "/")`,
`strings.Join`, `strings.TrimPrefix`, `strings.HasPrefix` and `path.Join`.
These are embedded here at the level of `List Char` data so that they stay
executable and easy to reason about.  Paths in this program are relative
(never starting with `/`), which is the case the `path.Clean` model below
covers. -/

/-- Models Go `strings.Split(s, sep)` for a one-character separator, on the
character list.  The result is always nonempty. -/
def splitChar (c : Char) : List Char → List (List Char)
  | [] => [[]]
  | x :: xs =>
    match splitChar c xs with
    | [] => [[]]
    | r :: rs => if x = c then [] :: r :: rs else (x :: r) :: rs

/-- Models Go `strings.Split(s, "/")`. -/
def splitOnSlash (s : String) : List String :=
  (splitChar '/' s.data).map (fun l => String.mk l)

/-- Models Go `strings.Join(parts, "/")`. -/
def joinSegs : List String → String
  | [] => ""
  | [p] => p
  | p :: q :: rest => p ++ "/" ++ joinSegs (q :: rest)

/-- One step of Go `path.Clean`'s segment processing: drop empty and `.`
segments, let `..` pop the previous segment (kept literally when there is
nothing to pop in a relative path). -/
def cleanStep (acc : List String) (s : String) : List String :=
  if s = "" ∨ s = "." then acc
  else if s = ".." then
    (if acc = [] ∨ acc.getLast? = some ".." then acc ++ [".."] else acc.dropLast)
  else acc ++ [s]

/-- Segment list form of Go `path.Clean` for relative paths. -/
def cleanSegs (segs : List String) : List String :=
  segs.foldl cleanStep []

/-- Models Go `path.Clean` for relative paths (the only paths this program
cleans; no argument in `cmd/create.go` starts with `/`). -/
def goClean (p : String) : String :=
  let segs := cleanSegs (splitOnSlash p)
  if segs = [] then "." else joinSegs segs

/-- Models Go `path.Join(elem...)`: skip leading empty elements, join the rest
with `/` and clean the result; all-empty input yields `""`. -/
def goJoinList (elems : List String) : String :=
  match elems.dropWhile (fun e => e = "") with
  | [] => ""
  | l => goClean (joinSegs l)

/-- Models Go `strings.TrimPrefix(s, pre)`. -/
def trimPrefixOf (s pre : String) : String :=
  if pre.data.isPrefixOf s.data then String.mk (s.data.drop pre.data.length) else s

/-- Segment usable verbatim by `path.Clean`: nonempty and not a dot segment. -/
def plainSeg (s : String) : Bool :=
  s ≠ "" && s ≠ "." && s ≠ ".."

/-- Relative path all of whose `/`-separated segments are plain. -/
def plainPath (s : String) : Bool :=
  (splitOnSlash s).all plainSeg

/-- Byte-lexicographic comparison of character lists via code points; on the
ASCII strings this program sorts it agrees with Go's `string` ordering. -/
def leChars : List Char → List Char → Bool
  | [], _ => true
  | _ :: _, [] => false
  | a :: as, b :: bs =>
    if a.toNat < b.toNat then true
    else if b.toNat < a.toNat then false
    else leChars as bs

/-- Models Go string `<=` (used by `sort.Strings`). -/
def leStr (a b : String) : Bool :=
  leChars a.data b.data

/-- Insertion into a `leStr`-sorted list. -/
def insertSorted (s : String) : List String → List String
  | [] => [s]
  | x :: xs => if leStr s x then s :: x :: xs else x :: insertSorted s xs

/-- Models Go `sort.Strings` (the result is `leStr`-sorted and a permutation
of the input; which sorted sequence Go produces is unique). -/
def sortStrings (l : List String) : List String :=
  l.foldr insertSorted []

/-! ## The baseline tree (`node` in `create.go`)

Go's `node` has fields `name`, `isDir`, `relativeLocation`, `parent`,
`childNodes map[string]*node`, `md5Hash`.  The `parent` back pointer is set
but never read by any function embedded here (it only exists for path
reconstruction per the spec), so it is omitted; `childNodes` becomes an
association list with unique keys. -/

inductive Node where
  | mk (name : String) (isDir : Bool) (relativeLocation : String)
       (md5Hash : String) (childNodes : List (String × Node))
deriving Repr

def Node.name : Node → String
  | .mk n _ _ _ _ => n

def Node.isDir : Node → Bool
  | .mk _ d _ _ _ => d

def Node.relativeLocation : Node → String
  | .mk _ _ r _ _ => r

def Node.md5Hash : Node → String
  | .mk _ _ _ h _ => h

def Node.childNodes : Node → List (String × Node)
  | .mk _ _ _ _ c => c

/-- Replaces the children map, leaving the other fields unchanged (Go mutates
`root.childNodes` in place). -/
def Node.setChildNodes : Node → List (String × Node) → Node
  | .mk n d r h _, c => .mk n d r h c

/-- Models the Go map read `root.childNodes[key]`. -/
def lookupChild : List (String × Node) → String → Option Node
  | [], _ => none
  | (k, v) :: rest, key => if k = key then some v else lookupChild rest key

/-- Models the Go map write `root.childNodes[key] = v` (replaces an existing
binding, otherwise appends). -/
def setChild : List (String × Node) → String → Node → List (String × Node)
  | [], key, v => [(key, v)]
  | (k, w) :: rest, key, v =>
    if k = key then (key, v) :: rest else (k, w) :: setChild rest key v

/-- Models `createNewNode` in `create.go`: zero-valued node with an empty
children map. -/
def createNewNode : Node := .mk "" false "" "" []

/-- Shared body of both node-creation sites inside `AddToRootNode`: a fresh
childless node named `p` whose `relativeLocation` extends the parent's. -/
def mkChildNode (root : Node) (p : String) (isDir : Bool) (md5Hash : String) : Node :=
  .mk p isDir
    (if root.relativeLocation = "" then p else root.relativeLocation ++ "/" ++ p)
    md5Hash []

/-- Embeds `AddToRootNode(root, path, isDir, md5Hash)` from `create.go`.
At the final segment a fresh childless node is stored, replacing any existing
binding for that name (and thereby discarding that binding's subtree).  At an
intermediate segment, an existing child is descended into; a missing child is
created (with the inserted entry's `isDir` and `md5Hash`) and the remaining
segments are NOT processed further, exactly as in the Go `else` branch, which
does not recurse.  Go panics on an empty path (`path[0]`); callers always pass
a `strings.Split` result, which is never empty, so `[]` is mapped to a no-op. -/
def addToRootNode (root : Node) : List String → Bool → String → Node
  | [], _, _ => root
  | [p], isDir, md5Hash =>
    root.setChildNodes (setChild root.childNodes p (mkChildNode root p isDir md5Hash))
  | p :: q :: rest, isDir, md5Hash =>
    match lookupChild root.childNodes p with
    | some child =>
      root.setChildNodes
        (setChild root.childNodes p (addToRootNode child (q :: rest) isDir md5Hash))
    | none =>
      root.setChildNodes (setChild root.childNodes p (mkChildNode root p isDir md5Hash))

/-- Embeds `NodeExists(rootNode, path, isDir)` from `create.go`: walk the
segments through the children maps; at the last segment compare the node's
kind.  Go indexes `path[0]`, so the empty path (unreachable from callers) is
mapped to `false`. -/
def NodeExists (rootNode : Node) : List String → Bool → Bool
  | [], _ => false
  | [p], isDir =>
    match lookupChild rootNode.childNodes p with
    | some child => child.isDir == isDir
    | none => false
  | p :: q :: rest, isDir =>
    match lookupChild rootNode.childNodes p with
    | some child => NodeExists child (q :: rest) isDir
    | none => false

/-- Embeds `PathExists(rootNode, relativePath, isDir)` from `create.go`. -/
def PathExists (rootNode : Node) (relativePath : String) (isDir : Bool) : Bool :=
  NodeExists rootNode (splitOnSlash relativePath) isDir

/-- Embeds `CheckMD5(rootNode, path, md5)` from `create.go`: walk the
segments; at the last segment the node must be a non-directory with the given
hash.  As with `NodeExists`, the empty path is unreachable and maps to
`false`. -/
def CheckMD5 (rootNode : Node) : List String → String → Bool
  | [], _ => false
  | [p], md5 =>
    match lookupChild rootNode.childNodes p with
    | some child => child.isDir == false && child.md5Hash == md5
    | none => false
  | p :: q :: rest, md5 =>
    match lookupChild rootNode.childNodes p with
    | some child => CheckMD5 child (q :: rest) md5
    | none => false

/-- Embeds `CompareMD5(rootNode, relativePath, md5)` from `create.go`. -/
def CompareMD5 (rootNode : Node) (relativePath : String) (md5 : String) : Bool :=
  CheckMD5 rootNode (splitOnSlash relativePath) md5

/-- Walks a nonempty segment path from a node to the node it denotes, the way
`NodeExists` and `CheckMD5` walk it; used to state what those functions
decide.  The empty path denotes no node, matching the two walkers. -/
def findNode (root : Node) : List String → Option Node
  | [] => none
  | [p] => lookupChild root.childNodes p
  | p :: q :: rest =>
    match lookupChild root.childNodes p with
    | some child => findNode child (q :: rest)
    | none => none

/-! ## Match resolution (`FindMatches`) -/

mutual

/-- Embeds `FindMatches(root, name, isDir, matches)` from `create.go`.  The Go
function fills a `map[string]*node` keyed by the visited node's
`relativeLocation`; here the list of recorded keys is returned (the stored
value is always the visited node itself, whose `relativeLocation` is the
key).  The visited node records its own relative path when it has a direct
child with the requested name and kind, and the traversal then recurses into
exactly the children that are directories. -/
def FindMatches (root : Node) (name : String) (isDir : Bool) : List String :=
  (match lookupChild root.childNodes name with
   | some childNode => if isDir == childNode.isDir then [root.relativeLocation] else []
   | none => []) ++ findMatchesList root.childNodes name isDir
termination_by sizeOf root
decreasing_by
  cases root
  simp [Node.childNodes]

/-- The `for _, childNode := range root.childNodes` loop of `FindMatches`. -/
def findMatchesList (children : List (String × Node)) (name : String) (isDir : Bool) :
    List String :=
  match children with
  | [] => []
  | (_, childNode) :: rest =>
    (if childNode.isDir then FindMatches childNode name isDir else []) ++
      findMatchesList rest name isDir
termination_by sizeOf children
decreasing_by
  · simp
    omega
  · simp

end

/-- Nodes reached from `r` by repeatedly stepping into directory children:
exactly the nodes whose body the `FindMatches` traversal executes. -/
inductive Visits : Node → Node → Prop
  | refl (r : Node) : Visits r r
  | step {r m c : Node} {key : String} :
      Visits r m → (key, c) ∈ m.childNodes → c.isDir = true → Visits r c

/-! ## Inventory, change records and copy actions -/

/-- Embeds the `data` struct of `create.go` (one scanned inventory entry). -/
structure FileData where
  name : String
  isDir : Bool
  relativePath : String
  md5 : String
deriving Repr, DecidableEq

/-- Zero value of `data`, produced by a missing-key Go map read. -/
def FileData.zero : FileData := ⟨"", false, "", ""⟩

/-- Models the Go map read `allFilesMap[key]` (zero value when absent). -/
def lookupData (allFilesMap : List (String × FileData)) (key : String) : FileData :=
  match allFilesMap with
  | [] => FileData.zero
  | (k, v) :: rest => if k = key then v else lookupData rest key

/-- Embeds `getAllMatchingFiles(filepath, allFilesMap)` from `create.go`: the
non-directory inventory entries whose key has `filepath` as a strict STRING
prefix (`strings.HasPrefix(filename, filepath) && filename != filepath`). -/
def getAllMatchingFiles (filepathArg : String) (allFilesMap : List (String × FileData)) :
    List String :=
  allFilesMap.filterMap fun fd =>
    if !fd.2.isDir && filepathArg.data.isPrefixOf fd.1.data && fd.1 != filepathArg
    then some fd.1 else none

/-- One entry of the manifest's Added/Modified lists. -/
inductive ChangeRecord where
  | added (destinationPath : String)
  | modified (destinationPath : String)
deriving Repr, DecidableEq

def ChangeRecord.path : ChangeRecord → String
  | .added p => p
  | .modified p => p

def ChangeRecord.isModified : ChangeRecord → Bool
  | .added _ => false
  | .modified _ => true

/-- One realized copy, as performed by `copyFile` in `create.go`: the copied
inventory entry, where it was read from, the full staging destination, and
the single `ChangeRecord` appended for it. -/
structure CopyAction where
  filename : String
  source : String
  fullPath : String
  record : ChangeRecord
deriving Repr, DecidableEq

/-- Embeds `copyFile(filename, locationInUpdate, relativeLocationInTemp,
rootNode, updateDescriptor)` from `create.go`.  The filesystem write is
modelled by returning the `CopyAction`; the classification mirrors the code:
the destination path relative to `carbon.home` is checked with
`PathExists(rootNode, relativePath, false)` and exactly one record (Modified
on `true`, Added on `false`) is appended.  `updateName` stands for the
`viper` configuration value `UPDATE_NAME`; `constant.TEMP_DIR = "temp"`,
`constant.CARBON_HOME = "carbon.home"`, `constant.PATH_SEPARATOR = "/"`. -/
def copyFileAction (rootNode : Node) (filename locationInUpdate relativeLocationInTemp
    updateName : String) : CopyAction :=
  let source := goJoinList [locationInUpdate, filename]
  let carbonHome := goJoinList ["temp", updateName, "carbon.home"]
  let destination := goJoinList [carbonHome, relativeLocationInTemp]
  let fullPath := goJoinList [destination, filename]
  let relativePath := trimPrefixOf fullPath (carbonHome ++ "/")
  let record := if PathExists rootNode relativePath false
                then ChangeRecord.modified relativePath
                else ChangeRecord.added relativePath
  ⟨filename, source, fullPath, record⟩

/-! ## Placement flows

Each `handle*` function of `create.go` is embedded as the list of copy
actions it performs for given (already collected) interactive answers.
`checkMd5Disabled` stands for the `viper` flag `CHECK_MD5_DISABLED` (hash
checking is enabled when it is `false`), `updateRoot` for `UPDATE_ROOT` and
`updateName` for `UPDATE_NAME`. -/

/-- Embeds the copy phase of `handleSingleMatch(filename, matchingNode, isDir,
allFilesMap, rootNode, updateDescriptor)`: for a directory entry every
matching file is copied to `matchingNode.relativeLocation`, each first
subjected to the MD5 skip (`CompareMD5` at
`path.Join(matchingNode.relativeLocation, match)`) when checking is enabled;
a file entry is copied unconditionally — the Go `else` branch has no MD5
check.  `matchLocation` is `matchingNode.relativeLocation`. -/
def handleSingleMatchActions (checkMd5Disabled : Bool) (filename : String)
    (matchLocation : String) (isDir : Bool) (allFilesMap : List (String × FileData))
    (rootNode : Node) (updateRoot updateName : String) : List CopyAction :=
  if isDir then
    (getAllMatchingFiles filename allFilesMap).filterMap fun mtch =>
      if !checkMd5Disabled &&
          CompareMD5 rootNode (goJoinList [matchLocation, mtch]) (lookupData allFilesMap mtch).md5
      then none
      else some (copyFileAction rootNode mtch updateRoot matchLocation updateName)
  else
    [copyFileAction rootNode filename updateRoot matchLocation updateName]

/-- Embeds the post-validation part of `handleMultipleMatches`: the validated
comma-separated selection `selRaw` is sorted with `sort.Strings`; if its
first element is the string `"0"` the whole entry is skipped (no copies).
Otherwise each selected index is mapped through `indexMap` (a missing key
gives Go's zero value `""`) and copied like the single-match flow — including
the MD5 skip for files under a directory entry, which the Go code also
performs here; a file entry is copied once per selected index with no MD5
check. -/
def handleMultipleMatchesActions (checkMd5Disabled : Bool) (filename : String)
    (isDir : Bool) (indexMap : List (String × String)) (selRaw : List String)
    (allFilesMap : List (String × FileData)) (rootNode : Node)
    (updateRoot updateName : String) : List CopyAction :=
  let selectedIndices := sortStrings selRaw
  if selectedIndices.head? = some "0" then []
  else if isDir then
    selectedIndices.flatMap fun selectedIndex =>
      let pathInDistribution := ((indexMap.lookup selectedIndex).getD "")
      (getAllMatchingFiles filename allFilesMap).filterMap fun mtch =>
        if !checkMd5Disabled &&
            CompareMD5 rootNode (goJoinList [pathInDistribution, mtch])
              (lookupData allFilesMap mtch).md5
        then none
        else some (copyFileAction rootNode mtch updateRoot pathInDistribution updateName)
  else
    selectedIndices.map fun selectedIndex =>
      copyFileAction rootNode filename updateRoot ((indexMap.lookup selectedIndex).getD "")
        updateName

/-- Outcome of one pass of the destination loop in `handleNewFile` for one
entered destination. -/
inductive NewFileStep where
  | copied (actions : List CopyAction)
  | awaitConfirmation
deriving Repr, DecidableEq

/-- Embeds one iteration of the `readDestinationLoop` of `handleNewFile`,
given the entered destination after the prefix/suffix separator trimming.
The existence test mirrors the code exactly: for a directory entry it is
`PathExists(rootNode, path.Join(relativeLocation, filename), true)`; for a
file entry it is `PathExists(rootNode, relativeLocation, true)` — the entered
path itself, with `isDir = true`.  On success the entry is copied at once
(a directory entry copies every matching file; a file entry copies just the
file); a nonempty path that fails the test enters the confirmation sub-loop;
an empty path copies the matching files at once. -/
def handleNewFileIteration (rootNode : Node) (filename : String) (isDir : Bool)
    (relativeLocationInDistribution : String) (allFilesMap : List (String × FileData))
    (updateRoot updateName : String) : NewFileStep :=
  let pathFound :=
    if isDir then
      PathExists rootNode (goJoinList [relativeLocationInDistribution, filename]) true
    else
      PathExists rootNode relativeLocationInDistribution true
  if pathFound then
    .copied
      (if isDir then
        (getAllMatchingFiles filename allFilesMap).map fun mtch =>
          copyFileAction rootNode mtch updateRoot relativeLocationInDistribution updateName
      else
        [copyFileAction rootNode filename updateRoot relativeLocationInDistribution updateName])
  else if relativeLocationInDistribution.length > 0 then
    .awaitConfirmation
  else
    .copied
      ((getAllMatchingFiles filename allFilesMap).map fun mtch =>
        copyFileAction rootNode mtch updateRoot relativeLocationInDistribution updateName)

/-! ## Scanning the update directory (`readDirectory`) -/

/-- One visit delivered by `filepath.Walk` to the closure in `readDirectory`:
either a successfully stat-ed entry (whose `md5` is `none` when the file's
bytes cannot be read, making `util.GetMD5` fail), or a visit that reports a
traversal error (`err != nil`). -/
inductive WalkEvent where
  | ok (absolutePath : String) (name : String) (isDir : Bool) (md5 : Option String)
  | errVisit
deriving Repr, DecidableEq

/-- State accumulated by the `readDirectory` closure. -/
structure ScanState where
  allFilesMap : List (String × FileData)
  rootLevelDirectoriesMap : List String
  rootLevelFilesMap : List String
deriving Repr, DecidableEq

/-- Models the Go map write `m[key] = v` for the inventory map. -/
def setData (m : List (String × FileData)) (key : String) (v : FileData) :
    List (String × FileData) :=
  match m with
  | [] => [(key, v)]
  | (k, w) :: rest => if k = key then (key, v) :: rest else (k, w) :: setData rest key v

/-- Runs the closure passed to `filepath.Walk` inside `readDirectory` over the
walk events, stopping (as `filepath.Walk` does for a non-`SkipDir` error
return) at the first error.  The closure ignores the root itself and ignored
names, records root-level names by kind, hashes files — note that a root-level
file's name is recorded BEFORE `util.GetMD5` runs, as in the code — and
returns the error of a failed hash or of an error visit. -/
def walkUpdateDirectory (root : String) (ignoredFiles : List String) :
    ScanState → List WalkEvent → ScanState × Option Unit
  | st, [] => (st, none)
  | st, WalkEvent.errVisit :: _ => (st, some ())
  | st, WalkEvent.ok absolutePath name isDir md5 :: rest =>
    if root = absolutePath then walkUpdateDirectory root ignoredFiles st rest
    else if ignoredFiles.contains name then walkUpdateDirectory root ignoredFiles st rest
    else
      let relativePath := trimPrefixOf absolutePath (root ++ "/")
      if isDir then
        let st1 :=
          if goJoinList [root, name] = absolutePath
          then { st with rootLevelDirectoriesMap := st.rootLevelDirectoriesMap ++ [name] }
          else st
        let st2 := { st1 with
          allFilesMap := setData st1.allFilesMap relativePath
            ⟨name, true, relativePath, ""⟩ }
        walkUpdateDirectory root ignoredFiles st2 rest
      else
        let st1 :=
          if goJoinList [root, name] = absolutePath
          then { st with rootLevelFilesMap := st.rootLevelFilesMap ++ [name] }
          else st
        match md5 with
        | none => (st1, some ())
        | some md5Sum =>
          let st2 := { st1 with
            allFilesMap := setData st1.allFilesMap relativePath
              ⟨name, false, relativePath, md5Sum⟩ }
          walkUpdateDirectory root ignoredFiles st2 rest

/-- Embeds `readDirectory(root, ignoredFiles)` from `create.go`.  The Go
function calls `filepath.Walk` and DISCARDS its return value, then returns
the three maps with a literal `nil` error; the discarded walk outcome is
reproduced here by dropping the second component and returning `none`. -/
def readDirectory (root : String) (ignoredFiles : List String)
    (events : List WalkEvent) : ScanState × Option Unit :=
  let walked := walkUpdateDirectory root ignoredFiles ⟨[], [], []⟩ events
  (walked.1, none)

/-! ## Indexing the distribution (`readZip`) -/

/-- One entry of the baseline zip archive as `readZip` consumes it:
`openErr` models `file.Open()` failing, `readErr` models `ioutil.ReadAll`
returning an error, and `md5` is the hex MD5 of whatever bytes `ReadAll` did
return (possibly truncated data when `readErr` is set). -/
structure ZipEntry where
  name : String
  isDir : Bool
  openErr : Bool
  readErr : Bool
  md5 : String
deriving Repr, DecidableEq

/-- The entry loop of `readZip`: on an open error the partially built tree is
returned together with the error; the error of `ioutil.ReadAll` is IGNORED by
the code (`data, err := ioutil.ReadAll(zippedFile)` with `err` never
examined), so a `readErr` entry is indexed like any other, with the hash of
the partial data. -/
def readZipLoop (productName : String) : Node → List ZipEntry → Node × Option Unit
  | rootNode, [] => (rootNode, none)
  | rootNode, file :: rest =>
    if file.openErr then (rootNode, some ())
    else
      let relativePath := trimPrefixOf file.name (productName ++ "/")
      readZipLoop productName
        (addToRootNode rootNode (splitOnSlash relativePath) file.isDir file.md5) rest

/-- Embeds `readZip(filename)` from `create.go`, abstracting the archive into
its entry list.  `productName` stands for the `viper` value `PRODUCT_NAME`. -/
def readZip (productName : String) (entries : List ZipEntry) : Node × Option Unit :=
  readZipLoop productName createNewNode entries

/-! ## BuildTree (spec §4.1) over pre-split entries

The spec's `BuildTree(entries)` strips the leading distribution-name
component and splits each path into segments before descending; `readZip`
does the stripping and splitting and `AddToRootNode` the descent.  For
claims about tree construction the entries are taken with their already
stripped, split relative paths. -/

/-- One archive entry with its relative path already split into segments. -/
structure Entry where
  path : List String
  isDir : Bool
  md5 : String
deriving Repr, DecidableEq

/-- Folds `AddToRootNode` over the entries, as the `readZip` loop does. -/
def BuildTree (entries : List Entry) : Node :=
  entries.foldl (fun t e => addToRootNode t e.path e.isDir e.md5) createNewNode

/-- Nonempty proper prefixes of a segment path. -/
def properPrefixes : List String → List (List String)
  | [] => []
  | [_] => []
  | x :: y :: rest => [x] :: (properPrefixes (y :: rest)).map (x :: ·)

/-- Checks an entry sequence is listed ancestors-first with pairwise distinct
paths: each entry's path is nonempty and not seen before, and each of its
nonempty proper prefixes is the path of an earlier entry.  Well-formed zip
archives (every directory entry before its contents, no duplicates) satisfy
this. -/
def prefixClosed (seen : List (List String)) : List Entry → Bool
  | [] => true
  | e :: rest =>
    !(e.path = []) && !seen.contains e.path &&
      (properPrefixes e.path).all (seen.contains ·) &&
      prefixClosed (e.path :: seen) rest

/-! ## Spec-modelled collaborator checks -/

/-- Decimal digit by code point (the spec's indices are plain decimal). -/
def isDigitChar (c : Char) : Bool :=
  48 ≤ c.toNat && c.toNat ≤ 57

/-- Modelled from the spec: an entry of the selection list is an index — a
nonempty string of decimal digits — whose value is read in the usual way.
Malformed entries parse to `none`. -/
def parseIndex (s : String) : Option Nat :=
  if s.data ≠ [] ∧ s.data.all isDigitChar
  then some (s.data.foldl (fun acc c => 10 * acc + (c.toNat - 48)) 0)
  else none

/-- Modelled from the spec: `util.IsUserPreferencesValid(selectedIndices,
length)` (the `util` package is not part of the sources here).  Per §4.4 a
selection is valid when every comma-separated entry is an index in `[0, N]`
(`0` being the reserved skip sentinel); any malformed or out-of-range entry
re-prompts. -/
def isUserPreferencesValid (selectedIndices : List String) (length : Nat) : Bool :=
  selectedIndices.all fun s =>
    match parseIndex s with
    | some k => k ≤ length
    | none => false

/-- States the spec's words for claim C5: an inventory path lies under a
top-level entry's subtree when the entry's path followed by a separator is a
prefix of it (files strictly below the entry). -/
def underEntrySubtree (entryPath inventoryPath : String) : Bool :=
  (entryPath ++ "/").data.isPrefixOf inventoryPath.data

/-! ## Basic lemmas -/

/-- Characterizes the walk performed by `CheckMD5` through `findNode`. -/
theorem checkMD5_iff (p : List String) : ∀ (root : Node) (md5 : String),
    CheckMD5 root p md5 = true ↔
      ∃ n, findNode root p = some n ∧ n.isDir = false ∧ n.md5Hash = md5 := by
  induction p with
  | nil => intro root md5; simp [CheckMD5, findNode]
  | cons x xs ih =>
    intro root md5
    cases xs with
    | nil =>
      simp only [CheckMD5, findNode]
      cases h : lookupChild root.childNodes x with
      | none => simp
      | some c => simp [Bool.and_eq_true]
    | cons y ys =>
      simp only [CheckMD5, findNode]
      cases h : lookupChild root.childNodes x with
      | none => simp
      | some c => exact ih c md5

/-- Characterizes the walk performed by `NodeExists` through `findNode`. -/
theorem nodeExists_iff (p : List String) : ∀ (root : Node) (isDir : Bool),
    NodeExists root p isDir = true ↔
      ∃ n, findNode root p = some n ∧ n.isDir = isDir := by
  induction p with
  | nil => intro root isDir; simp [NodeExists, findNode]
  | cons x xs ih =>
    intro root isDir
    cases xs with
    | nil =>
      simp only [NodeExists, findNode]
      cases h : lookupChild root.childNodes x with
      | none => simp
      | some c => simp
    | cons y ys =>
      simp only [NodeExists, findNode]
      cases h : lookupChild root.childNodes x with
      | none => simp
      | some c => exact ih c isDir

/-- Membership in `getAllMatchingFiles` spelt out. -/
theorem mem_getAllMatchingFiles (fp m : String) (files : List (String × FileData)) :
    m ∈ getAllMatchingFiles fp files ↔
      ∃ d, (m, d) ∈ files ∧ d.isDir = false ∧ fp.data.isPrefixOf m.data = true ∧ m ≠ fp := by
  simp only [getAllMatchingFiles, List.mem_filterMap]
  constructor
  · rintro ⟨⟨k, d⟩, hmem, hsome⟩
    by_cases hc : (!d.isDir && fp.data.isPrefixOf k.data && k != fp) = true
    · rw [if_pos hc] at hsome
      obtain rfl : k = m := by simpa using hsome
      simp only [Bool.and_eq_true, Bool.not_eq_true', bne_iff_ne] at hc
      exact ⟨d, hmem, hc.1.1, hc.1.2, hc.2⟩
    · rw [if_neg hc] at hsome
      exact absurd hsome (by simp)
  · rintro ⟨d, hmem, hdir, hpre, hne⟩
    refine ⟨(m, d), hmem, ?_⟩
    rw [if_pos (by simp [hdir, hpre, hne])]

/-! ## Claim C10 -/

/-- Claim C10 (confirmed): `CompareMD5` returns `true` exactly when walking
the relative path from the root ends at an existing non-directory node whose
stored hash equals the given value; in particular it is `false` when no node
exists at the path or the node there is a directory, so the hash-skip can
never suppress copying a file absent from the baseline tree. -/
theorem C10_compareMD5_characterization (rootNode : Node) (relativePath md5 : String) :
    CompareMD5 rootNode relativePath md5 = true ↔
      ∃ n, findNode rootNode (splitOnSlash relativePath) = some n ∧
        n.isDir = false ∧ n.md5Hash = md5 :=
  checkMD5_iff (splitOnSlash relativePath) rootNode md5

/-! ## Claim C5 -/

/-- Claim C5 counterexample: `getAllMatchingFiles` selects by STRING prefix,
so with a top-level entry `conf` the file `confx/y` of the sibling entry
`confx` — which merely begins with the same characters and is not in `conf`'s
subtree — is selected for copying, contradicting the claim that exactly the
entry's subtree is copied. -/
theorem C5_counterexample :
    "confx/y" ∈ getAllMatchingFiles "conf" [("confx/y", ⟨"y", false, "confx/y", "h"⟩)]
    ∧ underEntrySubtree "conf" "confx/y" = false := by
  decide

/-- Claim C5 amended: when a top-level directory entry is copied to a chosen
destination, the files copied are exactly the non-directory inventory entries
whose relative path has the entry's relative path as a strict STRING prefix
(this includes files of a sibling entry whose name begins with the same
characters), each copied by one `copyFile` call that lands it under the
destination with its full inventory path (entry name plus internal sub-path)
appended.  The copy loop is shown with hash checking disabled, which isolates
the selection semantics from the hash skip (claim C2's subject matter). -/
theorem C5_amended (fp : String) (files : List (String × FileData))
    (matchLocation : String) (root : Node) (ur un : String) :
    (∀ m, m ∈ getAllMatchingFiles fp files ↔
      ∃ d, (m, d) ∈ files ∧ d.isDir = false ∧ fp.data.isPrefixOf m.data = true ∧ m ≠ fp)
    ∧ handleSingleMatchActions true fp matchLocation true files root ur un
        = (getAllMatchingFiles fp files).map
            (fun m => copyFileAction root m ur matchLocation un) := by
  constructor
  · intro m
    exact mem_getAllMatchingFiles fp m files
  · simp only [handleSingleMatchActions, Bool.not_true, Bool.false_and, Bool.false_eq_true,
      if_false, if_true]
    exact congrFun (List.filterMap_eq_map _) _

/-! ## Claim C9 -/

/-- Claim C9 counterexample: in the zero-match destination loop for the FILE
entry `app.xml` with entered path `conf`, the code copies without the
confirmation sub-loop (because `PathExists(root, "conf", true)` holds for the
directory `conf`) even though the candidate path joined with the entry name,
`conf/app.xml`, does not exist in the baseline tree at all — the claimed
condition is false while the copy proceeds. -/
theorem C9_counterexample :
    handleNewFileIteration (BuildTree [⟨["conf"], true, "h"⟩]) "app.xml" false "conf" []
        "u" "u1" ≠ NewFileStep.awaitConfirmation
    ∧ PathExists (BuildTree [⟨["conf"], true, "h"⟩]) (goJoinList ["conf", "app.xml"])
        false = false := by
  decide

/-- Claim C9 amended: in the zero-match destination loop the copy proceeds
without the confirmation sub-loop exactly when the entered path is empty, or
the entry is a directory and the path joined with the entry name exists in
the baseline tree as a directory, or the entry is a file and the entered path
ITSELF exists in the baseline tree as a directory (the code checks the path,
not path joined with name, and always with kind directory). -/
theorem C9_amended (rootNode : Node) (filename : String) (isDir : Bool)
    (relativeLocationInDistribution : String) (allFilesMap : List (String × FileData))
    (updateRoot updateName : String) :
    handleNewFileIteration rootNode filename isDir relativeLocationInDistribution
        allFilesMap updateRoot updateName ≠ NewFileStep.awaitConfirmation ↔
      (relativeLocationInDistribution = ""
        ∨ (isDir = true ∧
            PathExists rootNode (goJoinList [relativeLocationInDistribution, filename])
              true = true)
        ∨ (isDir = false ∧
            PathExists rootNode relativeLocationInDistribution true = true)) := by
  have hzero : ("" : String).length = 0 := rfl
  have hlen : ¬ relativeLocationInDistribution = "" →
      0 < relativeLocationInDistribution.length := by
    intro h2
    rcases Nat.eq_zero_or_pos relativeLocationInDistribution.length with h0 | h0
    · exact absurd (String.ext (List.length_eq_zero.mp ((String.length_data _).trans h0))) h2
    · exact h0
  cases isDir with
  | false =>
    by_cases h2 : relativeLocationInDistribution = ""
    · subst h2
      by_cases h1 : PathExists rootNode "" true = true
      · simp [handleNewFileIteration, h1]
      · simp [handleNewFileIteration, h1, hzero]
    · by_cases h1 : PathExists rootNode relativeLocationInDistribution true = true
      · simp [handleNewFileIteration, h1, h2]
      · simp [handleNewFileIteration, h1, h2, hlen h2]
  | true =>
    by_cases h2 : relativeLocationInDistribution = ""
    · subst h2
      by_cases h1 : PathExists rootNode (goJoinList ["", filename]) true = true
      · simp [handleNewFileIteration, h1]
      · simp [handleNewFileIteration, h1, hzero]
    · by_cases h1 : PathExists rootNode
          (goJoinList [relativeLocationInDistribution, filename]) true = true
      · simp [handleNewFileIteration, h1, h2]
      · simp [handleNewFileIteration, h1, h2, hlen h2]

/-! ## Claim C2 -/

/-- Claim C2 counterexample: with hash checking enabled, (i) a single
top-level FILE resolved on the SingleMatch path is copied — producing a
ChangeRecord — even though its precomputed hash `h` equals the baseline
node's hash at the destination `conf/a.xml` (the Go file branch has no MD5
check), and (ii) on the MULTIPLE-match path a file under a directory entry
IS skipped by the hash check (no copy, no record), so the skip is not
exclusive to the SingleMatch path. -/
theorem C2_counterexample :
    (handleSingleMatchActions false "a.xml" "conf" false
        [("a.xml", ⟨"a.xml", false, "a.xml", "h"⟩)]
        (BuildTree [⟨["conf"], true, ""⟩, ⟨["conf", "a.xml"], false, "h"⟩]) "u" "u1" ≠ []
      ∧ CompareMD5 (BuildTree [⟨["conf"], true, ""⟩, ⟨["conf", "a.xml"], false, "h"⟩])
          "conf/a.xml" "h" = true)
    ∧ handleMultipleMatchesActions false "cdir" true [("1", "conf")] ["1"]
        [("cdir/x.xml", ⟨"x.xml", false, "cdir/x.xml", "h"⟩)]
        (BuildTree [⟨["conf"], true, ""⟩, ⟨["conf", "cdir"], true, ""⟩,
          ⟨["conf", "cdir", "x.xml"], false, "h"⟩]) "u" "u1" = [] := by
  decide

/-- Claim C2 amended: when hash checking is enabled, the skip applies exactly
to the files copied under a top-level DIRECTORY entry — identically on the
single-match path and on each selected destination of the multiple-match
path — skipping a file precisely when `CompareMD5` holds for its precomputed
hash at its destination; a single top-level file is always copied with no
hash check, and the zero-match flow performs its copies without consulting
hashes at all. -/
theorem C2_amended (fn matchLocation : String) (files : List (String × FileData))
    (root : Node) (ur un : String) :
    (∀ a, a ∈ handleSingleMatchActions false fn matchLocation true files root ur un ↔
      ∃ m, m ∈ getAllMatchingFiles fn files ∧
        CompareMD5 root (goJoinList [matchLocation, m]) (lookupData files m).md5 = false ∧
        a = copyFileAction root m ur matchLocation un)
    ∧ handleSingleMatchActions false fn matchLocation false files root ur un
        = [copyFileAction root fn ur matchLocation un]
    ∧ (∀ indexMap selRaw, (sortStrings selRaw).head? ≠ some "0" →
        handleMultipleMatchesActions false fn true indexMap selRaw files root ur un
          = (sortStrings selRaw).flatMap fun idx =>
              handleSingleMatchActions false fn ((indexMap.lookup idx).getD "") true files
                root ur un)
    ∧ (∀ relLoc, handleNewFileIteration root fn true relLoc files ur un
          ≠ NewFileStep.awaitConfirmation →
        handleNewFileIteration root fn true relLoc files ur un
          = NewFileStep.copied ((getAllMatchingFiles fn files).map
              fun m => copyFileAction root m ur relLoc un)) := by
  refine ⟨?_, ?_, ?_, ?_⟩
  · intro a
    simp only [handleSingleMatchActions, if_true, List.mem_filterMap]
    constructor
    · rintro ⟨m, hm, hsome⟩
      by_cases hc : (!false && CompareMD5 root (goJoinList [matchLocation, m])
          (lookupData files m).md5) = true
      · rw [if_pos hc] at hsome
        exact absurd hsome (by simp)
      · rw [if_neg hc] at hsome
        simp only [Bool.not_false, Bool.true_and] at hc
        exact ⟨m, hm, by simpa using hc, by simpa using hsome.symm⟩
    · rintro ⟨m, hm, hmd5, rfl⟩
      refine ⟨m, hm, ?_⟩
      rw [if_neg (by simp [hmd5])]
  · simp [handleSingleMatchActions]
  · intro indexMap selRaw hsel
    simp only [handleMultipleMatchesActions, handleSingleMatchActions, if_neg hsel, if_true]
  · intro relLoc hne
    by_cases h1 : PathExists root (goJoinList [relLoc, fn]) true = true
    · simp [handleNewFileIteration, h1]
    · by_cases h2 : relLoc = ""
      · subst h2
        simp [handleNewFileIteration, h1, (rfl : ("" : String).length = 0)]
      · exfalso
        apply hne
        have hlen : 0 < relLoc.length := by
          rcases Nat.eq_zero_or_pos relLoc.length with h0 | h0
          · exact absurd (String.ext (List.length_eq_zero.mp
              ((String.length_data _).trans h0))) h2
          · exact h0
        simp [handleNewFileIteration, h1, hlen]

/-- Claim C2 amended witness: the two implication parts of the amended claim
applied at concrete inputs — a non-skip selection `["1"]` on the
multiple-match path, and the entered destination `""` on the zero-match
path. -/
theorem C2_amended_witness :
    handleMultipleMatchesActions false "cdir" true [("1", "conf")] ["1"] []
        createNewNode "u" "u1"
      = (sortStrings ["1"]).flatMap (fun idx =>
          handleSingleMatchActions false "cdir" (([("1", "conf")].lookup idx).getD "")
            true [] createNewNode "u" "u1")
    ∧ handleNewFileIteration createNewNode "cdir" true "" [] "u" "u1"
        = NewFileStep.copied ((getAllMatchingFiles "cdir" []).map
            fun m => copyFileAction createNewNode m "u" "" "u1") :=
  ⟨(C2_amended "cdir" "" [] createNewNode "u" "u1").2.2.1 [("1", "conf")] ["1"] (by decide),
   (C2_amended "cdir" "" [] createNewNode "u" "u1").2.2.2 "" (by decide)⟩

/-! ## Claim C6 -/

/-- Claim C6 (code bug): a scan in which the walk visits a readable file `a`
and then fails to hash an unreadable file `b` makes `readDirectory` return a
PARTIALLY populated inventory (containing `a`, and even `b`'s root-level name
recorded before hashing) together with a `nil` error — the walk closure does
abort, but `filepath.Walk`'s return value is discarded by `readDirectory`,
so no ReadError reaches the caller. -/
theorem C6_readDirectory_swallows_error :
    (readDirectory "u" [] [.ok "u/a" "a" false (some "h1"), .ok "u/b" "b" false none]).2
        = none
    ∧ (readDirectory "u" [] [.ok "u/a" "a" false (some "h1"), .ok "u/b" "b" false none]).1
        = ⟨[("a", ⟨"a", false, "a", "h1"⟩)], [], ["a", "b"]⟩
    ∧ (walkUpdateDirectory "u" [] ⟨[], [], []⟩
        [.ok "u/a" "a" false (some "h1"), .ok "u/b" "b" false none]).2 = some () := by
  decide

/-! ## Claim C7 -/

/-- Claim C7 (code bug): an archive entry `p/a` whose payload read fails
(`ioutil.ReadAll` returns an error, modelled by `readErr = true`) is indexed
anyway with the hash of the partial data, and `readZip` returns the complete
tree with a `nil` error: the `ReadAll` error is never examined, so indexing
is not aborted and no ReadError is surfaced. -/
theorem C7_readZip_ignores_read_error :
    (readZip "p" [⟨"p/a", false, false, true, "d41d"⟩]).2 = none
    ∧ NodeExists (readZip "p" [⟨"p/a", false, false, true, "d41d"⟩]).1 ["a"] false = true
    ∧ (findNode (readZip "p" [⟨"p/a", false, false, true, "d41d"⟩]).1 ["a"]).map
        Node.md5Hash = some "d41d" := by
  decide

/-! ## Sorting lemmas for claim C8 -/

theorem charEq_of_toNat_eq {a b : Char} (h : a.toNat = b.toNat) : a = b :=
  Char.eq_of_val_eq (UInt32.ext h)

theorem leChars_total : ∀ a b : List Char, leChars a b = true ∨ leChars b a = true := by
  intro a
  induction a with
  | nil => intro b; exact Or.inl rfl
  | cons x xs ih =>
    intro b
    cases b with
    | nil => exact Or.inr rfl
    | cons y ys =>
      simp only [leChars]
      rcases Nat.lt_trichotomy x.toNat y.toNat with h | h | h
      · left; rw [if_pos h]
      · rw [if_neg (by omega), if_neg (by omega), if_neg (by omega), if_neg (by omega)]
        exact ih ys
      · right; rw [if_pos h]

theorem leChars_antisymm : ∀ a b : List Char,
    leChars a b = true → leChars b a = true → a = b := by
  intro a
  induction a with
  | nil =>
    intro b _ hba
    cases b with
    | nil => rfl
    | cons y ys => exact absurd hba (by simp [leChars])
  | cons x xs ih =>
    intro b hab hba
    cases b with
    | nil => exact absurd hab (by simp [leChars])
    | cons y ys =>
      simp only [leChars] at hab hba
      rcases Nat.lt_trichotomy x.toNat y.toNat with h | h | h
      · rw [if_neg (by omega), if_pos h] at hba
        exact absurd hba (by simp)
      · rw [if_neg (by omega), if_neg (by omega)] at hab hba
        rw [charEq_of_toNat_eq h, ih ys hab hba]
      · rw [if_neg (by omega), if_pos h] at hab
        exact absurd hab (by simp)

theorem leChars_trans : ∀ a b c : List Char,
    leChars a b = true → leChars b c = true → leChars a c = true := by
  intro a
  induction a with
  | nil => intro b c _ _; rfl
  | cons x xs ih =>
    intro b c hab hbc
    cases b with
    | nil => exact absurd hab (by simp [leChars])
    | cons y ys =>
      cases c with
      | nil => exact absurd hbc (by simp [leChars])
      | cons z zs =>
        simp only [leChars] at hab hbc ⊢
        rcases Nat.lt_trichotomy x.toNat y.toNat with h1 | h1 | h1 <;>
          rcases Nat.lt_trichotomy y.toNat z.toNat with h2 | h2 | h2
        · rw [if_pos (by omega)]
        · rw [if_pos (by omega)]
        · rw [if_neg (by omega), if_pos h2] at hbc
          exact absurd hbc (by simp)
        · rw [if_pos (by omega)]
        · rw [if_neg (by omega), if_neg (by omega)] at hab hbc ⊢
          exact ih ys zs hab hbc
        · rw [if_neg (by omega), if_pos h2] at hbc
          exact absurd hbc (by simp)
        · rw [if_neg (by omega), if_pos h1] at hab
          exact absurd hab (by simp)
        · rw [if_neg (by omega), if_pos h1] at hab
          exact absurd hab (by simp)
        · rw [if_neg (by omega), if_pos h1] at hab
          exact absurd hab (by simp)

theorem leStr_total (a b : String) : leStr a b = true ∨ leStr b a = true :=
  leChars_total a.data b.data

theorem leStr_trans {a b c : String} (hab : leStr a b = true) (hbc : leStr b c = true) :
    leStr a c = true :=
  leChars_trans a.data b.data c.data hab hbc

theorem leStr_antisymm {a b : String} (hab : leStr a b = true) (hba : leStr b a = true) :
    a = b :=
  String.ext (leChars_antisymm a.data b.data hab hba)

theorem mem_insertSorted (s x : String) : ∀ l, x ∈ insertSorted s l ↔ x = s ∨ x ∈ l := by
  intro l
  induction l with
  | nil => simp [insertSorted]
  | cons y ys ih =>
    simp only [insertSorted]
    by_cases h : leStr s y = true
    · rw [if_pos h]; simp
    · rw [if_neg h]; simp [ih]; tauto

theorem mem_sortStrings (x : String) : ∀ l, x ∈ sortStrings l ↔ x ∈ l := by
  intro l
  induction l with
  | nil => simp [sortStrings]
  | cons y ys ih =>
    show x ∈ insertSorted y (sortStrings ys) ↔ _
    rw [mem_insertSorted]
    simp [ih]

theorem pairwise_insertSorted (s : String) :
    ∀ l, l.Pairwise (fun a b => leStr a b = true) →
      (insertSorted s l).Pairwise (fun a b => leStr a b = true) := by
  intro l
  induction l with
  | nil => intro _; simp [insertSorted]
  | cons y ys ih =>
    intro hp
    rw [List.pairwise_cons] at hp
    simp only [insertSorted]
    by_cases h : leStr s y = true
    · rw [if_pos h]
      rw [List.pairwise_cons]
      refine ⟨?_, List.pairwise_cons.mpr hp⟩
      intro b hb
      rcases List.mem_cons.mp hb with rfl | hb
      · exact h
      · exact leStr_trans h (hp.1 b hb)
    · rw [if_neg h]
      rw [List.pairwise_cons]
      constructor
      · intro b hb
        rcases (mem_insertSorted s b ys).mp hb with hb | hb
        · rw [hb]
          rcases leStr_total s y with h2 | h2
          · exact absurd h2 h
          · exact h2
        · exact hp.1 b hb
      · exact ih hp.2

theorem pairwise_sortStrings :
    ∀ l, (sortStrings l).Pairwise (fun a b => leStr a b = true) := by
  intro l
  induction l with
  | nil => simp [sortStrings]
  | cons y ys ih => exact pairwise_insertSorted y (sortStrings ys) ih

/-- When every element of the list is at least `"0"` and `"0"` occurs in it,
`sort.Strings` puts `"0"` first. -/
theorem sortStrings_head_zero (l : List String) (h0 : "0" ∈ l)
    (hge : ∀ s ∈ l, leStr "0" s = true) : (sortStrings l).head? = some "0" := by
  have h0s : "0" ∈ sortStrings l := (mem_sortStrings "0" l).mpr h0
  cases hs : sortStrings l with
  | nil => rw [hs] at h0s; exact absurd h0s (by simp)
  | cons m t =>
    have hp := pairwise_sortStrings l
    rw [hs, List.pairwise_cons] at hp
    have hm : m ∈ l := (mem_sortStrings m l).mp (by rw [hs]; exact List.mem_cons_self m t)
    have h0m : leStr "0" m = true := hge m hm
    rw [hs] at h0s
    have hm0 : m = "0" := by
      rcases List.mem_cons.mp h0s with h | h
      · exact h.symm
      · exact leStr_antisymm (hp.1 _ h) h0m
    simp [hm0]

/-- Entries accepted by the spec-modelled index parser compare at least `"0"`
in the byte order used by `sort.Strings`. -/
theorem leStr_zero_of_parseIndex {s : String} {k : Nat} (h : parseIndex s = some k) :
    leStr "0" s = true := by
  unfold parseIndex at h
  by_cases hc : s.data ≠ [] ∧ s.data.all isDigitChar
  · show leChars ['0'] s.data = true
    rcases hd : s.data with _ | ⟨c, cs⟩
    · exact absurd hd hc.1
    · have hdig : isDigitChar c = true := by
        have := hc.2
        rw [hd] at this
        simp only [List.all_cons, Bool.and_eq_true] at this
        exact this.1
      simp only [isDigitChar, Bool.and_eq_true, decide_eq_true_eq] at hdig
      simp only [leChars]
      have h48 : ('0' : Char).toNat = 48 := rfl
      rcases Nat.lt_or_ge ('0' : Char).toNat c.toNat with hlt | hge
      · rw [if_pos hlt]
      · rw [if_neg (by omega), if_neg (by omega)]
  · rw [if_neg hc] at h
    exact absurd h (by simp)

/-! ## Claim C8 -/

/-- Claim C8 (confirmed, against the spec-modelled validator): for every
validated selection list containing the entry `"0"` anywhere, the
multiple-match flow skips the whole entry — zero copies and zero
ChangeRecords — regardless of the other entries: sorting puts `"0"` first
(every valid index entry is a digit string, hence at least `"0"` bytewise),
and the code tests exactly the first sorted element. -/
theorem C8_zero_selection_skips (selRaw : List String) (n : Nat)
    (h0 : "0" ∈ selRaw) (hv : isUserPreferencesValid selRaw n = true)
    (checkMd5Disabled : Bool) (filename : String) (isDir : Bool)
    (indexMap : List (String × String)) (allFilesMap : List (String × FileData))
    (rootNode : Node) (updateRoot updateName : String) :
    handleMultipleMatchesActions checkMd5Disabled filename isDir indexMap selRaw
      allFilesMap rootNode updateRoot updateName = [] := by
  have hge : ∀ s ∈ selRaw, leStr "0" s = true := by
    intro s hs
    have := (List.all_eq_true.mp hv) s hs
    cases hp : parseIndex s with
    | none => rw [hp] at this; exact absurd this (by simp)
    | some k => exact leStr_zero_of_parseIndex hp
  have hhead : (sortStrings selRaw).head? = some "0" :=
    sortStrings_head_zero selRaw h0 hge
  simp [handleMultipleMatchesActions, hhead]

/-- Claim C8 witness: the concrete selection `["2", "0", "1"]` with three
candidates is valid, contains `"0"` in the middle, and produces no copy
actions. -/
theorem C8_zero_selection_skips_witness :
    handleMultipleMatchesActions false "conf" true [("1", "a"), ("2", "b"), ("3", "c")]
      ["2", "0", "1"] [] createNewNode "u" "u1" = [] :=
  C8_zero_selection_skips ["2", "0", "1"] 3 (by decide) (by decide) false "conf" true
    [("1", "a"), ("2", "b"), ("3", "c")] [] createNewNode "u" "u1"

/-! ## FindMatches lemmas for claim C4 -/

theorem mem_findMatchesList (n : String) (k : Bool) (P : String) :
    ∀ l : List (String × Node), P ∈ findMatchesList l n k ↔
      ∃ key c, (key, c) ∈ l ∧ c.isDir = true ∧ P ∈ FindMatches c n k := by
  intro l
  induction l with
  | nil => simp [findMatchesList]
  | cons kc rest ih =>
    obtain ⟨key, c⟩ := kc
    simp only [findMatchesList, List.mem_append, ih, List.mem_cons]
    by_cases hd : c.isDir = true
    · rw [if_pos hd]
      constructor
      · rintro (h | ⟨key2, c2, hmem, hdir, hP⟩)
        · exact ⟨key, c, Or.inl rfl, hd, h⟩
        · exact ⟨key2, c2, Or.inr hmem, hdir, hP⟩
      · rintro ⟨key2, c2, hmem | hmem, hdir, hP⟩
        · cases hmem
          exact Or.inl hP
        · exact Or.inr ⟨key2, c2, hmem, hdir, hP⟩
    · rw [if_neg hd]
      simp only [List.not_mem_nil, false_or]
      constructor
      · rintro ⟨key2, c2, hmem, hdir, hP⟩
        exact ⟨key2, c2, Or.inr hmem, hdir, hP⟩
      · rintro ⟨key2, c2, hmem | hmem, hdir, hP⟩
        · cases hmem
          exact absurd hdir hd
        · exact ⟨key2, c2, hmem, hdir, hP⟩

theorem visits_trans {r m p : Node} (h1 : Visits r m) (h2 : Visits m p) : Visits r p := by
  induction h2 with
  | refl => exact h1
  | step _ hmem hdir ih => exact Visits.step ih hmem hdir

/-- Every key recorded by `FindMatches` is the relative path of some node the
traversal visits (reachable through directory children), and that node has a
direct child with the requested name and kind. -/
theorem findMatches_sound (root : Node) (n : String) (k : Bool) :
    ∀ P ∈ FindMatches root n k, ∃ m, Visits root m ∧ P = m.relativeLocation ∧
      ∃ c, lookupChild m.childNodes n = some c ∧ c.isDir = k := by
  intro P hP
  rw [FindMatches] at hP
  rcases List.mem_append.mp hP with hP | hP
  · refine ⟨root, Visits.refl root, ?_⟩
    cases hl : lookupChild root.childNodes n with
    | none => rw [hl] at hP; exact absurd hP (by simp)
    | some c =>
      rw [hl] at hP
      have hP2 : P ∈ (if (k == c.isDir) = true then [root.relativeLocation] else []) := hP
      by_cases hk : (k == c.isDir) = true
      · rw [if_pos hk] at hP2
        have : P = root.relativeLocation := by simpa using hP2
        exact ⟨this, c, rfl, (beq_iff_eq.mp hk).symm⟩
      · rw [if_neg hk] at hP2
        exact absurd hP2 (by simp)
  · rcases (mem_findMatchesList n k P root.childNodes).mp hP with ⟨key, c, hmem, hdir, hPc⟩
    rcases findMatches_sound c n k P hPc with ⟨m, hv, hrel, hchild⟩
    exact ⟨m, visits_trans (Visits.step (Visits.refl root) hmem hdir) hv, hrel, hchild⟩
termination_by sizeOf root
decreasing_by
  have h1 : sizeOf (key, c) < sizeOf root.childNodes := List.sizeOf_lt_of_mem hmem
  have h2 : sizeOf root.childNodes < sizeOf root := by
    cases root; simp [Node.childNodes]
  simp at h1
  omega

/-- The keys recorded below a visited node are recorded for the root. -/
theorem findMatches_mono {root m : Node} (hv : Visits root m) (n : String) (k : Bool) :
    ∀ P ∈ FindMatches m n k, P ∈ FindMatches root n k := by
  induction hv with
  | refl => intro P hP; exact hP
  | step hv2 hmem hdir ih =>
    intro P hP
    apply ih
    rw [FindMatches]
    apply List.mem_append.mpr
    right
    exact (mem_findMatchesList n k P _).mpr ⟨_, _, hmem, hdir, hP⟩

/-! ## Claim C4 -/

/-- Claim C4 counterexample: in the tree built from the file entries `x`,
`x/a`, `x/a/n`, the node at relative path `x/a` exists and has a direct
child `n` of kind file, yet `FindMatches(root, "n", false)` records nothing:
the traversal does not descend through `x`, which is not a directory
(intermediate nodes take the inserted entry's kind), so `x/a` is never
visited — refuting the claim for a buildable baseline tree. -/
theorem C4_counterexample :
    ((findNode (BuildTree [⟨["x"], false, "h1"⟩, ⟨["x", "a"], false, "h2"⟩,
        ⟨["x", "a", "n"], false, "h3"⟩]) ["x", "a"]).map
          (fun m => (m.relativeLocation, (lookupChild m.childNodes "n").map Node.isDir)))
        = some ("x/a", some false)
    ∧ FindMatches (BuildTree [⟨["x"], false, "h1"⟩, ⟨["x", "a"], false, "h2"⟩,
        ⟨["x", "a", "n"], false, "h3"⟩]) "n" false = [] := by
  constructor
  · decide
  · simp [FindMatches, findMatchesList, BuildTree, addToRootNode, createNewNode,
      mkChildNode, setChild, lookupChild, Node.childNodes, Node.setChildNodes,
      Node.isDir, Node.relativeLocation, List.foldl]

/-- Claim C4 amended: a path `P` is a key of `FindMatches(root, N, K)` exactly
when some node VISITED by the traversal — the root, or a node reachable from
it through a chain of directory children — has relative path `P` and a direct
child named `N` of kind `K`.  The forward guarantee of the claim therefore
holds for every visited node (in particular traversal does continue below a
match), but not for a node sitting below a non-directory child; and every
recorded key is the visited node's own relative path, not the matching
child's. -/
theorem C4_findMatches_characterization (root : Node) (n : String) (k : Bool)
    (P : String) :
    P ∈ FindMatches root n k ↔
      ∃ m, Visits root m ∧ P = m.relativeLocation ∧
        ∃ c, lookupChild m.childNodes n = some c ∧ c.isDir = k := by
  constructor
  · exact findMatches_sound root n k P
  · rintro ⟨m, hv, rfl, c, hc, hk⟩
    apply findMatches_mono hv
    rw [FindMatches]
    apply List.mem_append.mpr
    left
    rw [hc]
    show m.relativeLocation ∈ (if (k == c.isDir) = true then [m.relativeLocation] else [])
    rw [hk, if_pos (by simp)]
    exact List.mem_singleton.mpr rfl

/-! ## Path algebra for claim C3 -/

/-- Character-level companion of `joinSegs`. -/
def joinChar : List (List Char) → List Char
  | [] => []
  | [p] => p
  | p :: q :: rest => p ++ '/' :: joinChar (q :: rest)

theorem splitChar_ne_nil (c : Char) : ∀ l, splitChar c l ≠ [] := by
  intro l
  cases l with
  | nil => simp [splitChar]
  | cons x xs =>
    simp only [splitChar]
    cases h : splitChar c xs with
    | nil => simp
    | cons r rs =>
      show (if x = c then [] :: r :: rs else (x :: r) :: rs) ≠ []
      by_cases hx : x = c
      · rw [if_pos hx]; simp
      · rw [if_neg hx]; simp

theorem splitChar_append (c : Char) : ∀ l1 l2,
    splitChar c (l1 ++ c :: l2) = splitChar c l1 ++ splitChar c l2 := by
  intro l1
  induction l1 with
  | nil =>
    intro l2
    cases h : splitChar c l2 with
    | nil => exact absurd h (splitChar_ne_nil c l2)
    | cons r rs =>
      show (match splitChar c l2 with
            | [] => [[]]
            | r :: rs => if c = c then [] :: r :: rs else (c :: r) :: rs)
          = [[]] ++ r :: rs
      rw [h]
      simp
  | cons x xs ih =>
    intro l2
    show splitChar c (x :: (xs ++ c :: l2)) = splitChar c (x :: xs) ++ splitChar c l2
    simp only [splitChar, ih l2]
    cases h : splitChar c xs with
    | nil => exact absurd h (splitChar_ne_nil c xs)
    | cons r rs =>
      show (if x = c then [] :: r :: (rs ++ splitChar c l2)
            else (x :: r) :: (rs ++ splitChar c l2))
          = (if x = c then [] :: r :: rs else (x :: r) :: rs) ++ splitChar c l2
      by_cases hx : x = c
      · rw [if_pos hx, if_pos hx]; rfl
      · rw [if_neg hx, if_neg hx]; rfl

theorem joinChar_splitChar : ∀ l, joinChar (splitChar '/' l) = l := by
  intro l
  induction l with
  | nil => rfl
  | cons x xs ih =>
    simp only [splitChar]
    cases h : splitChar '/' xs with
    | nil => exact absurd h (splitChar_ne_nil '/' xs)
    | cons r rs =>
      rw [h] at ih
      show joinChar (if x = '/' then [] :: r :: rs else (x :: r) :: rs) = x :: xs
      by_cases hx : x = '/'
      · rw [if_pos hx]
        show ([] : List Char) ++ '/' :: joinChar (r :: rs) = x :: xs
        rw [hx]
        simp [ih]
      · rw [if_neg hx]
        cases rs with
        | nil =>
          show x :: r = x :: xs
          rw [show joinChar [r] = r from rfl] at ih
          rw [ih]
        | cons r2 rest =>
          show (x :: r) ++ '/' :: joinChar (r2 :: rest) = x :: xs
          rw [show joinChar (r :: r2 :: rest) = r ++ '/' :: joinChar (r2 :: rest) from rfl]
            at ih
          simp [← ih]

theorem joinSegs_map_mk : ∀ l : List (List Char),
    joinSegs (l.map String.mk) = String.mk (joinChar l) := by
  intro l
  induction l with
  | nil => rfl
  | cons p rest ih =>
    cases rest with
    | nil => rfl
    | cons q rest2 =>
      show String.mk p ++ "/" ++ joinSegs ((q :: rest2).map String.mk)
          = String.mk (p ++ '/' :: joinChar (q :: rest2))
      rw [ih]
      apply String.ext
      simp [String.data_append]

theorem joinSegs_splitOnSlash (s : String) : joinSegs (splitOnSlash s) = s := by
  show joinSegs ((splitChar '/' s.data).map String.mk) = s
  rw [joinSegs_map_mk, joinChar_splitChar]

theorem splitOnSlash_append (a b : String) :
    splitOnSlash (a ++ "/" ++ b) = splitOnSlash a ++ splitOnSlash b := by
  unfold splitOnSlash
  have hdata : (a ++ "/" ++ b).data = a.data ++ '/' :: b.data := by
    rw [String.data_append, String.data_append]
    show a.data ++ ['/'] ++ b.data = _
    simp
  rw [hdata, splitChar_append, List.map_append]

theorem plainPath_ne_empty {s : String} (h : plainPath s = true) : s ≠ "" := by
  intro he
  subst he
  exact absurd h (by decide)

theorem plainPath_append {a b : String} (ha : plainPath a = true) (hb : plainPath b = true) :
    plainPath (a ++ "/" ++ b) = true := by
  unfold plainPath at ha hb ⊢
  rw [splitOnSlash_append, List.all_append, ha, hb]
  rfl

theorem cleanSegs_plain : ∀ (segs : List String) (acc : List String),
    (∀ s ∈ segs, plainSeg s = true) → segs.foldl cleanStep acc = acc ++ segs := by
  intro segs
  induction segs with
  | nil => intro acc _; simp
  | cons x xs ih =>
    intro acc hall
    have hx : plainSeg x = true := hall x (List.mem_cons_self x xs)
    simp only [plainSeg, Bool.and_eq_true, ne_eq, decide_eq_true_eq] at hx
    obtain ⟨⟨hx1, hx2⟩, hx3⟩ := hx
    have hstep : cleanStep acc x = acc ++ [x] := by
      unfold cleanStep
      rw [if_neg (by rintro (h | h); exacts [hx1 h, hx2 h]), if_neg hx3]
    rw [List.foldl_cons, hstep,
      ih (acc ++ [x]) (fun s hs => hall s (List.mem_cons_of_mem x hs))]
    simp

theorem goClean_plain {s : String} (h : plainPath s = true) : goClean s = s := by
  unfold goClean
  have hsegs : cleanSegs (splitOnSlash s) = splitOnSlash s := by
    unfold cleanSegs
    rw [cleanSegs_plain (splitOnSlash s) [] (fun t ht => List.all_eq_true.mp h t ht)]
    simp
  rw [hsegs]
  have hne : splitOnSlash s ≠ [] := by
    show (splitChar '/' s.data).map String.mk ≠ []
    intro he
    exact splitChar_ne_nil '/' s.data (List.map_eq_nil_iff.mp he)
  rw [if_neg hne]
  exact joinSegs_splitOnSlash s

theorem joinSegs_cons_cons (a b : String) (rest : List String) :
    joinSegs (a :: b :: rest) = a ++ "/" ++ joinSegs (b :: rest) := rfl

theorem plainPath_joinSegs : ∀ l : List String, l ≠ [] →
    (∀ s ∈ l, plainPath s = true) → plainPath (joinSegs l) = true := by
  intro l
  induction l with
  | nil => intro h _; exact absurd rfl h
  | cons a rest ih =>
    intro _ hall
    cases rest with
    | nil => exact hall a (List.mem_cons_self a [])
    | cons b rest2 =>
      rw [joinSegs_cons_cons]
      exact plainPath_append (hall a (List.mem_cons_self a _))
        (ih (by simp) (fun s hs => hall s (List.mem_cons_of_mem a hs)))

theorem goJoinList_plain : ∀ l : List String, l ≠ [] →
    (∀ s ∈ l, plainPath s = true) → goJoinList l = joinSegs l := by
  intro l hne hall
  cases l with
  | nil => exact absurd rfl hne
  | cons a rest =>
    have ha : plainPath a = true := hall a (List.mem_cons_self a rest)
    have hdrop : (a :: rest).dropWhile (fun e => e = "") = a :: rest := by
      rw [List.dropWhile_cons, if_neg (by simp [plainPath_ne_empty ha])]
    unfold goJoinList
    rw [hdrop]
    exact goClean_plain (plainPath_joinSegs (a :: rest) (by simp) hall)

theorem trimPrefixOf_append (p x : String) : trimPrefixOf (p ++ x) p = x := by
  unfold trimPrefixOf
  rw [if_pos (by
    rw [String.data_append]
    exact List.isPrefixOf_iff_prefix.mpr (List.prefix_append _ _))]
  apply String.ext
  show ((p ++ x).data.drop p.data.length) = x.data
  rw [String.data_append]
  exact List.drop_left _ _

/-- The destination path recorded by `copyFile`: joining `carbon.home`, the
destination directory and the file name, then trimming the `carbon.home`
prefix, yields exactly the destination directory joined with the file name
(for clean path arguments, which is what the flows pass). -/
theorem copyFile_relativePath (relLoc fn un : String) (h1 : plainPath relLoc = true)
    (h2 : plainPath fn = true) (h3 : plainPath un = true) :
    trimPrefixOf (goJoinList [goJoinList [goJoinList ["temp", un, "carbon.home"], relLoc],
        fn]) (goJoinList ["temp", un, "carbon.home"] ++ "/")
      = relLoc ++ "/" ++ fn := by
  have htemp : plainPath "temp" = true := by decide
  have hcarb : plainPath "carbon.home" = true := by decide
  have hch : goJoinList ["temp", un, "carbon.home"]
      = "temp" ++ "/" ++ (un ++ "/" ++ "carbon.home") := by
    rw [goJoinList_plain ["temp", un, "carbon.home"] (by simp) (by
      intro s hs
      simp only [List.mem_cons, List.not_mem_nil, or_false] at hs
      rcases hs with rfl | rfl | rfl
      exacts [htemp, h3, hcarb])]
    rw [joinSegs_cons_cons]
    rfl
  have hchplain : plainPath (goJoinList ["temp", un, "carbon.home"]) = true := by
    rw [hch]
    exact plainPath_append htemp (plainPath_append h3 hcarb)
  have hd : goJoinList [goJoinList ["temp", un, "carbon.home"], relLoc]
      = goJoinList ["temp", un, "carbon.home"] ++ "/" ++ relLoc := by
    rw [goJoinList_plain _ (by simp) (by
      intro s hs
      simp only [List.mem_cons, List.not_mem_nil, or_false] at hs
      rcases hs with rfl | rfl
      exacts [hchplain, h1])]
    rfl
  have hdplain : plainPath (goJoinList [goJoinList ["temp", un, "carbon.home"], relLoc])
      = true := by
    rw [hd]
    exact plainPath_append hchplain h1
  have hf : goJoinList [goJoinList [goJoinList ["temp", un, "carbon.home"], relLoc], fn]
      = goJoinList [goJoinList ["temp", un, "carbon.home"], relLoc] ++ "/" ++ fn := by
    rw [goJoinList_plain _ (by simp) (by
      intro s hs
      simp only [List.mem_cons, List.not_mem_nil, or_false] at hs
      rcases hs with rfl | rfl
      exacts [hdplain, h2])]
    rfl
  rw [hf, hd]
  have key := trimPrefixOf_append (goJoinList ["temp", un, "carbon.home"] ++ "/")
    (relLoc ++ "/" ++ fn)
  simp only [String.append_assoc] at key ⊢
  exact key

/-! ## Claim C3 -/

/-- Claim C3 (confirmed): every realized copy — all copy sites go through
`copyFile` — appends exactly one `ChangeRecord` (the single `record` of its
`CopyAction`), whose path is the copied file's destination-relative path
(destination directory joined with the file name, hence never a bare
directory path): a Modified record exactly when `PathExists(rootNode, path,
false)` holds, i.e. when a non-directory node already existed in the baseline
tree at that exact path, and an Added record when no such File node existed
(including when the node there is a directory). -/
theorem C3_copy_classification (rootNode : Node)
    (filename locationInUpdate relativeLocationInTemp updateName : String)
    (hrel : plainPath relativeLocationInTemp = true)
    (hfn : plainPath filename = true) (hun : plainPath updateName = true) :
    (copyFileAction rootNode filename locationInUpdate relativeLocationInTemp
        updateName).record
      = (if PathExists rootNode (relativeLocationInTemp ++ "/" ++ filename) false
         then ChangeRecord.modified (relativeLocationInTemp ++ "/" ++ filename)
         else ChangeRecord.added (relativeLocationInTemp ++ "/" ++ filename))
    ∧ (copyFileAction rootNode filename locationInUpdate relativeLocationInTemp
        updateName).record.path
      = relativeLocationInTemp ++ "/" ++ filename := by
  have hrp := copyFile_relativePath relativeLocationInTemp filename updateName hrel hfn hun
  constructor
  · simp only [copyFileAction]
    rw [hrp]
  · simp only [copyFileAction]
    rw [hrp]
    by_cases h : PathExists rootNode (relativeLocationInTemp ++ "/" ++ filename) false
        = true
    · rw [if_pos h]; rfl
    · rw [if_neg h]; rfl

/-- Claim C3 witness: the classification applied to a concrete copy of
`a.xml` into `repository` over a tree that already has a File node at
`repository/a.xml`. -/
theorem C3_copy_classification_witness :
    (copyFileAction (BuildTree [⟨["repository"], true, ""⟩, ⟨["repository", "a.xml"],
        false, "old"⟩]) "a.xml" "u" "repository" "u1").record
      = (if PathExists (BuildTree [⟨["repository"], true, ""⟩, ⟨["repository", "a.xml"],
            false, "old"⟩]) ("repository" ++ "/" ++ "a.xml") false
         then ChangeRecord.modified ("repository" ++ "/" ++ "a.xml")
         else ChangeRecord.added ("repository" ++ "/" ++ "a.xml"))
    ∧ (copyFileAction (BuildTree [⟨["repository"], true, ""⟩, ⟨["repository", "a.xml"],
        false, "old"⟩]) "a.xml" "u" "repository" "u1").record.path
      = "repository" ++ "/" ++ "a.xml" :=
  C3_copy_classification (BuildTree [⟨["repository"], true, ""⟩, ⟨["repository", "a.xml"],
    false, "old"⟩]) "a.xml" "u" "repository" "u1" (by decide) (by decide) (by decide)

/-! ## Tree-construction lemmas for claim C1 -/

theorem findNode_cons (t : Node) (x : String) (r : List String) (hr : r ≠ []) :
    findNode t (x :: r)
      = (match lookupChild t.childNodes x with
         | some c => findNode c r
         | none => none) := by
  cases r with
  | nil => exact absurd rfl hr
  | cons y ys =>
    show (match lookupChild t.childNodes x with
          | some c => findNode c (y :: ys)
          | none => none) = _
    rfl

theorem lookup_setChild (k : String) (v : Node) :
    ∀ (l : List (String × Node)) (y : String),
      lookupChild (setChild l k v) y = if y = k then some v else lookupChild l y := by
  intro l
  induction l with
  | nil =>
    intro y
    show (if k = y then some v else none) = if y = k then some v else none
    by_cases h : y = k
    · rw [if_pos h, if_pos h.symm]
    · rw [if_neg h, if_neg (fun he => h he.symm)]
  | cons kv rest ih =>
    intro y
    obtain ⟨k2, v2⟩ := kv
    show lookupChild (if k2 = k then (k, v) :: rest else (k2, v2) :: setChild rest k v) y = _
    by_cases h2 : k2 = k
    · rw [if_pos h2]
      show (if k = y then some v else lookupChild rest y) = _
      by_cases hy : y = k
      · rw [if_pos hy.symm, if_pos hy]
      · rw [if_neg (fun he => hy he.symm), if_neg hy]
        show lookupChild rest y = lookupChild ((k2, v2) :: rest) y
        have : ¬ k2 = y := fun he => hy (he.symm.trans h2)
        show lookupChild rest y = if k2 = y then some v2 else lookupChild rest y
        rw [if_neg this]
    · rw [if_neg h2]
      show (if k2 = y then some v2 else lookupChild (setChild rest k v) y) = _
      by_cases hk2 : k2 = y
      · rw [if_pos hk2, if_neg (fun he : y = k => h2 (hk2.trans he)),
          show lookupChild ((k2, v2) :: rest) y = if k2 = y then some v2 else lookupChild rest y
            from rfl, if_pos hk2]
      · rw [if_neg hk2, ih y,
          show lookupChild ((k2, v2) :: rest) y = if k2 = y then some v2 else lookupChild rest y
            from rfl, if_neg hk2]

theorem addToRootNode_isDir (p : List String) :
    ∀ (t : Node) (d : Bool) (m : String), (addToRootNode t p d m).isDir = t.isDir := by
  cases p with
  | nil => intro t d m; rfl
  | cons x r =>
    cases r with
    | nil => intro t d m; cases t; rfl
    | cons y rest =>
      intro t d m
      show (match lookupChild t.childNodes x with
            | some child => t.setChildNodes
                (setChild t.childNodes x (addToRootNode child (y :: rest) d m))
            | none => t.setChildNodes
                (setChild t.childNodes x (mkChildNode t x d m))).isDir = t.isDir
      cases hl : lookupChild t.childNodes x <;> (cases t; rfl)

theorem addToRootNode_md5Hash (p : List String) :
    ∀ (t : Node) (d : Bool) (m : String), (addToRootNode t p d m).md5Hash = t.md5Hash := by
  cases p with
  | nil => intro t d m; rfl
  | cons x r =>
    cases r with
    | nil => intro t d m; cases t; rfl
    | cons y rest =>
      intro t d m
      show (match lookupChild t.childNodes x with
            | some child => t.setChildNodes
                (setChild t.childNodes x (addToRootNode child (y :: rest) d m))
            | none => t.setChildNodes
                (setChild t.childNodes x (mkChildNode t x d m))).md5Hash = t.md5Hash
      cases hl : lookupChild t.childNodes x <;> (cases t; rfl)

theorem add_children_single (t : Node) (x : String) (d : Bool) (m : String) :
    (addToRootNode t [x] d m).childNodes = setChild t.childNodes x (mkChildNode t x d m) := by
  cases t; rfl

theorem add_children_cons_found (t : Node) (x y : String) (rest : List String) (d : Bool)
    (m : String) (c : Node) (hl : lookupChild t.childNodes x = some c) :
    (addToRootNode t (x :: y :: rest) d m).childNodes
      = setChild t.childNodes x (addToRootNode c (y :: rest) d m) := by
  show (match lookupChild t.childNodes x with
        | some child => t.setChildNodes
            (setChild t.childNodes x (addToRootNode child (y :: rest) d m))
        | none => t.setChildNodes
            (setChild t.childNodes x (mkChildNode t x d m))).childNodes = _
  rw [hl]
  cases t; rfl

theorem findNode_mkChildNode (t : Node) (x : String) (d : Bool) (m : String)
    (q : List String) (hq : q ≠ []) : findNode (mkChildNode t x d m) q = none := by
  cases q with
  | nil => exact absurd rfl hq
  | cons a r =>
    cases r with
    | nil => rfl
    | cons b r2 => rfl

theorem properPrefixes_ne_nil : ∀ (p : List String), ∀ r ∈ properPrefixes p, r ≠ [] := by
  intro p
  cases p with
  | nil => intro r hr; exact absurd hr (by simp [properPrefixes])
  | cons x rest =>
    cases rest with
    | nil => intro r hr; exact absurd hr (by simp [properPrefixes])
    | cons y rest2 =>
      intro r hr
      simp only [properPrefixes, List.mem_cons, List.mem_map] at hr
      rcases hr with rfl | ⟨r2, _, rfl⟩ <;> simp

theorem findNode_createNewNode (q : List String) : findNode createNewNode q = none := by
  cases q with
  | nil => rfl
  | cons a r =>
    cases r with
    | nil => rfl
    | cons b r2 => rfl

/-- Inserting an entry whose proper prefixes already exist and whose full
path does not yet exist leaves the kind and hash of every OTHER path's node
unchanged (and creates no node at any other path). -/
theorem addToRootNode_preserves (p : List String) :
    ∀ (t : Node) (d : Bool) (m : String) (q : List String),
      (∀ r ∈ properPrefixes p, (findNode t r).isSome) →
      findNode t p = none → q ≠ p →
      (findNode (addToRootNode t p d m) q).map (fun nd : Node => (nd.isDir, nd.md5Hash))
        = (findNode t q).map (fun nd : Node => (nd.isDir, nd.md5Hash)) := by
  induction p with
  | nil => intro t d m q _ _ _; rfl
  | cons x r ih =>
    intro t d m q hpre habs hq
    cases r with
    | nil =>
      have habs2 : lookupChild t.childNodes x = none := habs
      cases q with
      | nil => rfl
      | cons z qr =>
        by_cases hz : z = x
        · subst hz
          cases qr with
          | nil => exact absurd rfl hq
          | cons w qr2 =>
            show (match lookupChild (addToRootNode t [z] d m).childNodes z with
                  | some c => findNode c (w :: qr2)
                  | none => none).map (fun nd : Node => (nd.isDir, nd.md5Hash))
                = (match lookupChild t.childNodes z with
                  | some c => findNode c (w :: qr2)
                  | none => none).map (fun nd : Node => (nd.isDir, nd.md5Hash))
            rw [add_children_single, lookup_setChild, if_pos rfl, habs2]
            show (findNode (mkChildNode t z d m) (w :: qr2)).map _
                = (none : Option Node).map _
            rw [findNode_mkChildNode t z d m (w :: qr2) (by simp)]
        · cases qr with
          | nil =>
            show (lookupChild (addToRootNode t [x] d m).childNodes z).map
                  (fun nd : Node => (nd.isDir, nd.md5Hash))
                = (lookupChild t.childNodes z).map (fun nd : Node => (nd.isDir, nd.md5Hash))
            rw [add_children_single, lookup_setChild, if_neg hz]
          | cons w qr2 =>
            show (match lookupChild (addToRootNode t [x] d m).childNodes z with
                  | some c => findNode c (w :: qr2)
                  | none => none).map (fun nd : Node => (nd.isDir, nd.md5Hash))
                = (match lookupChild t.childNodes z with
                  | some c => findNode c (w :: qr2)
                  | none => none).map (fun nd : Node => (nd.isDir, nd.md5Hash))
            rw [add_children_single, lookup_setChild, if_neg hz]
    | cons y rest =>
      have hx : (findNode t [x]).isSome := hpre [x] (List.mem_cons_self _ _)
      obtain ⟨c, hc⟩ := Option.isSome_iff_exists.mp hx
      have hlc : lookupChild t.childNodes x = some c := hc
      have hch := add_children_cons_found t x y rest d m c hlc
      cases q with
      | nil => rfl
      | cons z qr =>
        by_cases hz : z = x
        · subst hz
          cases qr with
          | nil =>
            show (lookupChild (addToRootNode t (z :: y :: rest) d m).childNodes z).map
                  (fun nd : Node => (nd.isDir, nd.md5Hash))
                = (lookupChild t.childNodes z).map (fun nd : Node => (nd.isDir, nd.md5Hash))
            rw [hch, lookup_setChild, if_pos rfl, hlc]
            show some ((addToRootNode c (y :: rest) d m).isDir,
                (addToRootNode c (y :: rest) d m).md5Hash) = some (c.isDir, c.md5Hash)
            rw [addToRootNode_isDir, addToRootNode_md5Hash]
          | cons w qr2 =>
            have hq2 : (w :: qr2) ≠ (y :: rest) := fun he => hq (by rw [he])
            show (match lookupChild (addToRootNode t (z :: y :: rest) d m).childNodes z with
                  | some c2 => findNode c2 (w :: qr2)
                  | none => none).map (fun nd : Node => (nd.isDir, nd.md5Hash))
                = (match lookupChild t.childNodes z with
                  | some c2 => findNode c2 (w :: qr2)
                  | none => none).map (fun nd : Node => (nd.isDir, nd.md5Hash))
            rw [hch, lookup_setChild, if_pos rfl, hlc]
            show (findNode (addToRootNode c (y :: rest) d m) (w :: qr2)).map _
                = (findNode c (w :: qr2)).map _
            apply ih c d m (w :: qr2) ?_ ?_ hq2
            · intro r2 hr2
              have hxr : (z :: r2) ∈ properPrefixes (z :: y :: rest) :=
                List.mem_cons_of_mem _ (List.mem_map.mpr ⟨r2, hr2, rfl⟩)
              have h2 := hpre (z :: r2) hxr
              rw [findNode_cons t z r2 (properPrefixes_ne_nil (y :: rest) r2 hr2), hlc]
                at h2
              exact h2
            · have h2 := habs
              rw [findNode_cons t z (y :: rest) (by simp), hlc] at h2
              exact h2
        · cases qr with
          | nil =>
            show (lookupChild (addToRootNode t (x :: y :: rest) d m).childNodes z).map
                  (fun nd : Node => (nd.isDir, nd.md5Hash))
                = (lookupChild t.childNodes z).map (fun nd : Node => (nd.isDir, nd.md5Hash))
            rw [hch, lookup_setChild, if_neg hz]
          | cons w qr2 =>
            show (match lookupChild (addToRootNode t (x :: y :: rest) d m).childNodes z with
                  | some c2 => findNode c2 (w :: qr2)
                  | none => none).map (fun nd : Node => (nd.isDir, nd.md5Hash))
                = (match lookupChild t.childNodes z with
                  | some c2 => findNode c2 (w :: qr2)
                  | none => none).map (fun nd : Node => (nd.isDir, nd.md5Hash))
            rw [hch, lookup_setChild, if_neg hz]

/-- Inserting an entry whose proper prefixes already exist makes its path
resolve to a node carrying the inserted kind and hash. -/
theorem addToRootNode_inserts (p : List String) :
    ∀ (t : Node) (d : Bool) (m : String),
      p ≠ [] → (∀ r ∈ properPrefixes p, (findNode t r).isSome) →
      (findNode (addToRootNode t p d m) p).map (fun nd : Node => (nd.isDir, nd.md5Hash))
        = some (d, m) := by
  induction p with
  | nil => intro t d m hp _; exact absurd rfl hp
  | cons x r ih =>
    intro t d m _ hpre
    cases r with
    | nil =>
      show (lookupChild (addToRootNode t [x] d m).childNodes x).map
            (fun nd : Node => (nd.isDir, nd.md5Hash)) = some (d, m)
      rw [add_children_single, lookup_setChild, if_pos rfl]
      rfl
    | cons y rest =>
      have hx : (findNode t [x]).isSome := hpre [x] (List.mem_cons_self _ _)
      obtain ⟨c, hc⟩ := Option.isSome_iff_exists.mp hx
      have hlc : lookupChild t.childNodes x = some c := hc
      show (match lookupChild (addToRootNode t (x :: y :: rest) d m).childNodes x with
            | some c2 => findNode c2 (y :: rest)
            | none => none).map (fun nd : Node => (nd.isDir, nd.md5Hash)) = some (d, m)
      rw [add_children_cons_found t x y rest d m c hlc, lookup_setChild, if_pos rfl]
      show (findNode (addToRootNode c (y :: rest) d m) (y :: rest)).map _ = some (d, m)
      apply ih c d m (by simp)
      intro r2 hr2
      have hxr : (x :: r2) ∈ properPrefixes (x :: y :: rest) :=
        List.mem_cons_of_mem _ (List.mem_map.mpr ⟨r2, hr2, rfl⟩)
      have h2 := hpre (x :: r2) hxr
      rw [findNode_cons t x r2 (properPrefixes_ne_nil (y :: rest) r2 hr2), hlc] at h2
      exact h2

/-- Invariant carried over the `readZip` insertion loop: entries already
processed stay resolvable with their kind and hash, and no path outside the
processed entries resolves to a node. -/
theorem buildLoop_inv : ∀ (rest : List Entry) (t : Node) (seen : List Entry),
    (∀ e ∈ seen, (findNode t e.path).map (fun nd : Node => (nd.isDir, nd.md5Hash))
      = some (e.isDir, e.md5)) →
    (∀ pr, (findNode t pr).isSome = true → pr ∈ seen.map Entry.path) →
    prefixClosed (seen.map Entry.path) rest = true →
    (∀ e ∈ seen ++ rest,
        (findNode (rest.foldl (fun t2 e2 => addToRootNode t2 e2.path e2.isDir e2.md5) t)
            e.path).map (fun nd : Node => (nd.isDir, nd.md5Hash)) = some (e.isDir, e.md5))
    ∧ (∀ pr, (findNode (rest.foldl (fun t2 e2 => addToRootNode t2 e2.path e2.isDir e2.md5)
          t) pr).isSome = true → pr ∈ (seen ++ rest).map Entry.path) := by
  intro rest
  induction rest with
  | nil =>
    intro t seen hfind hdom _
    refine ⟨?_, ?_⟩
    · intro e he
      rw [List.append_nil] at he
      exact hfind e he
    · intro pr hpr
      rw [List.append_nil]
      exact hdom pr hpr
  | cons e rest2 ih =>
    intro t seen hfind hdom hpc
    have h1 : (!decide (e.path = []) && !(seen.map Entry.path).contains e.path &&
        (properPrefixes e.path).all ((seen.map Entry.path).contains ·) &&
        prefixClosed (e.path :: seen.map Entry.path) rest2) = true := hpc
    rw [Bool.and_eq_true, Bool.and_eq_true, Bool.and_eq_true] at h1
    obtain ⟨⟨⟨ha, hb⟩, hc⟩, hpc2⟩ := h1
    have hne : e.path ≠ [] := by simpa using ha
    have hnot : e.path ∉ seen.map Entry.path := by simpa using hb
    have hpp : ∀ r ∈ properPrefixes e.path, r ∈ seen.map Entry.path := by
      intro r hr
      have := (List.all_eq_true.mp hc) r hr
      simpa using this
    have hpre : ∀ r ∈ properPrefixes e.path, (findNode t r).isSome = true := by
      intro r hr
      obtain ⟨e2, he2, hpath⟩ := List.mem_map.mp (hpp r hr)
      have h2 := hfind e2 he2
      rw [hpath] at h2
      rcases Option.map_eq_some'.mp h2 with ⟨nd, hnd, _⟩
      rw [hnd]
      rfl
    have habs : findNode t e.path = none := by
      cases hfn : findNode t e.path with
      | none => rfl
      | some nd =>
        have h2 : (findNode t e.path).isSome = true := by rw [hfn]; rfl
        exact absurd (hdom e.path h2) hnot
    have hfind2 : ∀ e2 ∈ e :: seen,
        (findNode (addToRootNode t e.path e.isDir e.md5) e2.path).map
            (fun nd : Node => (nd.isDir, nd.md5Hash))
          = some (e2.isDir, e2.md5) := by
      intro e2 he2
      rcases List.mem_cons.mp he2 with rfl | he2
      · exact addToRootNode_inserts e2.path t e2.isDir e2.md5 hne hpre
      · have hne2 : e2.path ≠ e.path := by
          intro he
          exact hnot (he ▸ List.mem_map.mpr ⟨e2, he2, rfl⟩)
        rw [addToRootNode_preserves e.path t e.isDir e.md5 e2.path hpre habs hne2]
        exact hfind e2 he2
    have hdom2 : ∀ pr, (findNode (addToRootNode t e.path e.isDir e.md5) pr).isSome = true →
        pr ∈ (e :: seen).map Entry.path := by
      intro pr hpr
      by_cases hpe : pr = e.path
      · rw [hpe]
        exact List.mem_cons_self _ _
      · have hmap := addToRootNode_preserves e.path t e.isDir e.md5 pr hpre habs hpe
        have h3 : (findNode t pr).isSome = true := by
          rcases Option.isSome_iff_exists.mp hpr with ⟨nd, hnd⟩
          rw [hnd] at hmap
          rcases Option.map_eq_some'.mp hmap.symm with ⟨nd2, hnd2, _⟩
          rw [hnd2]
          rfl
        exact List.mem_cons_of_mem _ (hdom pr h3)
    have hmain := ih (addToRootNode t e.path e.isDir e.md5) (e :: seen) hfind2 hdom2 hpc2
    constructor
    · intro e2 he2
      have he2b : e2 ∈ (e :: seen) ++ rest2 := by
        simp only [List.mem_append, List.mem_cons] at he2 ⊢
        tauto
      rw [List.foldl_cons]
      exact hmain.1 e2 he2b
    · intro pr hpr
      rw [List.foldl_cons] at hpr
      have h4 := hmain.2 pr hpr
      simp only [List.map_append, List.map_cons, List.mem_append, List.mem_cons] at h4 ⊢
      tauto

/-! ## Claim C1 -/

/-- Claim C1 counterexample: (i) building from the single entry `a/b` (a file
whose parent directory is never listed) leaves `a/b` unreachable — the Go
`else` branch of `AddToRootNode` creates the missing intermediate `a` and
DROPS the rest of the path; (ii) an entry describing the existing path `a`
after `a/b` has been indexed replaces the node wholesale and loses the
previously indexed descendant `a/b`.  Either part refutes the claim's
guarantee for arbitrary entry sequences. -/
theorem C1_counterexample :
    (NodeExists (BuildTree [⟨["a", "b"], false, "h"⟩]) ["a", "b"] false = false
      ∧ (findNode (BuildTree [⟨["a", "b"], false, "h"⟩]) ["a", "b"]).isSome = false)
    ∧ (findNode (BuildTree [⟨["a"], false, "h1"⟩, ⟨["a", "b"], false, "h2"⟩,
        ⟨["a"], true, "h3"⟩]) ["a", "b"]).isSome = false := by
  decide

/-- Claim C1 amended: when the entry sequence lists every path's proper
prefixes as earlier entries (as a well-formed archive does, each directory
entry preceding its contents) and entry paths are pairwise distinct, then
after `BuildTree` every entry's path resolves to exactly one node carrying
the entry's declared kind (and hash), and conversely every resolvable path
is an entry's path — one node per distinct relative path seen and no others.
Without that hypothesis an entry whose proper prefix was never inserted is
silently truncated at its first missing segment, and an entry naming an
already existing path replaces that node and discards its descendants. -/
theorem C1_buildTree_roundTrip (entries : List Entry)
    (h : prefixClosed [] entries = true) :
    (∀ e ∈ entries, (findNode (BuildTree entries) e.path).map
        (fun nd : Node => (nd.isDir, nd.md5Hash)) = some (e.isDir, e.md5))
    ∧ (∀ pr, (findNode (BuildTree entries) pr).isSome = true →
        pr ∈ entries.map Entry.path) := by
  have hmain := buildLoop_inv entries createNewNode []
    (by intro e he; exact absurd he (by simp))
    (by intro pr hpr; rw [findNode_createNewNode] at hpr; exact absurd hpr (by simp))
    h
  constructor
  · intro e he
    exact hmain.1 e (by simpa using he)
  · intro pr hpr
    have h2 := hmain.2 pr hpr
    simpa using h2

/-- Claim C1 witness: the ancestors-first sequence `a` (directory), `a/b`
(file) round-trips: `a/b` resolves to a file node with hash `h`. -/
theorem C1_buildTree_roundTrip_witness :
    (findNode (BuildTree [⟨["a"], true, "d"⟩, ⟨["a", "b"], false, "h"⟩]) ["a", "b"]).map
        (fun nd : Node => (nd.isDir, nd.md5Hash)) = some (false, "h") :=
  (C1_buildTree_roundTrip [⟨["a"], true, "d"⟩, ⟨["a", "b"], false, "h"⟩] (by decide)).1
    ⟨["a", "b"], false, "h"⟩ (by decide)

end Pct
